import Mathlib

/-!
# Verification of the minigrep line filter

Shallow embedding of `src/lib.rs` (crate `minigrep`): strings are modelled
as lists of Unicode scalar values (`List Char`), the Rust iterator pipeline
of `search` / `search_case_insensitive` as list functions, `Config::new`
as a function of the argument list and the value of the `CASE_INSENSITIVE`
environment variable, and `run` as a function of an injected file reader,
returning the sequence of lines it prints.
-/

/-- Rust strings are sequences of Unicode scalar values; we embed them as
lists of `Char`. -/
abbrev Str := List Char

/-- Coerce a Lean string literal to the embedding type. -/
def str (s : String) : Str := s.data

/-! ## `str::lines` (used by both search functions)

Rust's `str::lines` is `split_inclusive('\n')` followed by stripping, from
each piece, one trailing `'\n'` and — only when a `'\n'` was stripped —
one trailing `'\r'`.  A final piece not terminated by `'\n'` is returned
unchanged (its trailing `'\r'`, if any, is kept). -/

/-- Prepend a char to the first piece of a split (creating the piece when
there is none): the non-separator step of `splitInclusive`. -/
def splitInclusiveCons (c : Char) : List Str → List Str
  | [] => [[c]]
  | p :: ps => (c :: p) :: ps

/-- `str::split_inclusive` on a one-char separator: splits after every
occurrence of `sep`, keeping the separator at the end of each piece; the
empty string yields no pieces. -/
def splitInclusive (sep : Char) : Str → List Str
  | [] => []
  | c :: cs =>
    if c = sep then [c] :: splitInclusive sep cs
    else splitInclusiveCons c (splitInclusive sep cs)

/-- `str::strip_suffix` with a one-char suffix: `some` of the string with
its last char removed when that char is `c`, else `none`. -/
def stripSuffixChar (c : Char) (l : Str) : Option Str :=
  match l.reverse with
  | [] => none
  | x :: xs => if x = c then some xs.reverse else none

/-- The per-piece map of `str::lines`: strip one trailing `'\n'`, and then
one trailing `'\r'` only if a `'\n'` was stripped. -/
def linesMap (l : Str) : Str :=
  match stripSuffixChar '\n' l with
  | none => l
  | some s =>
    match stripSuffixChar '\r' s with
    | none => s
    | some s2 => s2

/-- `str::lines`. -/
def lines (s : Str) : List Str := (splitInclusive '\n' s).map linesMap

/-! ## `str::contains` with a string pattern (substring containment) -/

/-- `str::contains` with a `&str` pattern: the needle occurs as a
contiguous substring of the haystack. -/
def containsSub (needle : Str) : Str → Bool
  | [] => needle.isEmpty
  | c :: cs => needle.isPrefixOf (c :: cs) || containsSub needle cs

/-! ## `search` (lib.rs lines 55–59) -/

/-- `pub fn search`: keep, in order, the lines of `contents` that contain
`pattern` as a substring. -/
def search (pattern contents : Str) : List Str :=
  (lines contents).filter (fun line => containsSub pattern line)

/-! ## `str::to_lowercase` and `search_case_insensitive`

Rust's `str::to_lowercase` maps each char through the Unicode lowercase
mapping, except for `'Σ'` (U+03A3), which is mapped in context: to the
final form `'ς'` when the preceding chars (skipping Case_Ignorable chars)
end in a Cased char and the following chars (skipping Case_Ignorable
chars) do not start with a Cased char, and to `'σ'` otherwise.  This file
models the Unicode tables on the ranges exercised by the development —
ASCII, the Latin-1 supplement letters, the Greek capitals block, and the
multi-char mapping of `'İ'` (U+0130) — and is the identity elsewhere. -/

/-- The context-free Unicode lowercase mapping (`char::to_lowercase`),
modelled on ASCII, Latin-1 supplement letters, Greek capitals, and the
multi-char case `'İ' → "i" ++ combining dot above`; identity elsewhere. -/
def charToLowercase (c : Char) : Str :=
  if 'A' ≤ c ∧ c ≤ 'Z' then [Char.ofNat (c.toNat + 32)]
  else if c.toNat = 0x130 then ['i', Char.ofNat 0x307]
  else if 0xC0 ≤ c.toNat ∧ c.toNat ≤ 0xDE ∧ c.toNat ≠ 0xD7 then [Char.ofNat (c.toNat + 32)]
  else if 0x391 ≤ c.toNat ∧ c.toNat ≤ 0x3A9 ∧ c.toNat ≠ 0x3A2 then [Char.ofNat (c.toNat + 32)]
  else [c]

/-- The Unicode `Cased` property, modelled on ASCII letters, Latin-1
supplement letters, and the Greek letter block; false elsewhere. -/
def isCased (c : Char) : Bool :=
  (('A' ≤ c ∧ c ≤ 'Z') ∨ ('a' ≤ c ∧ c ≤ 'z')
    ∨ (0xC0 ≤ c.toNat ∧ c.toNat ≤ 0xFF ∧ c.toNat ≠ 0xD7 ∧ c.toNat ≠ 0xF7)
    ∨ (0x391 ≤ c.toNat ∧ c.toNat ≤ 0x3C9 ∧ c.toNat ≠ 0x3A2) : Prop)

/-- The Unicode `Case_Ignorable` property, modelled on the apostrophe
U+0027, the right single quotation mark U+2019, and the combining
diacritical marks U+0300–U+036F; false elsewhere. -/
def isCaseIgnorable (c : Char) : Bool :=
  (c.toNat = 0x27 ∨ c.toNat = 0x2019 ∨ (0x300 ≤ c.toNat ∧ c.toNat ≤ 0x36F) : Prop)

/-- Rust `case_ignorable_then_cased`: skip `Case_Ignorable` chars and test
whether the next char is `Cased` (false when the sequence runs out). -/
def caseIgnorableThenCased (l : Str) : Bool :=
  match l.dropWhile isCaseIgnorable with
  | [] => false
  | c :: _ => isCased c

/-- Lowercase one char in context: `'Σ'` maps to the final form `'ς'`
exactly when it ends a word (Rust `map_uppercase_sigma`), every other char
through the context-free mapping.  `before` is the reversed left context,
`after` the right context. -/
def lowercaseChar (before : Str) (c : Char) (after : Str) : Str :=
  if c = 'Σ' then
    if caseIgnorableThenCased before && !caseIgnorableThenCased after then ['ς']
    else ['σ']
  else charToLowercase c

/-- Char-by-char worker of `str::to_lowercase`; `before` is the reversed
list of already-consumed chars (the context to the left). -/
def toLowercaseAux : Str → Str → Str
  | _, [] => []
  | before, c :: after =>
    lowercaseChar before c after ++ toLowercaseAux (c :: before) after

/-- `str::to_lowercase`. -/
def toLowercase (s : Str) : Str := toLowercaseAux [] s

/-- `pub fn search_case_insensitive`: lowercase the pattern once, then
keep, in order, the lines whose lowercase form contains it. -/
def search_case_insensitive (pattern contents : Str) : List Str :=
  let pattern := toLowercase pattern
  (lines contents).filter (fun line => containsSub pattern (toLowercase line))

/-! ## `Config::new` (lib.rs lines 10–37)

The argument iterator is embedded as the list of the strings it yields;
`env::var("CASE_INSENSITIVE")` as an `Option Str` (`none` covers both an
absent variable and a non-Unicode value, the two `Err` cases of
`env::var`). -/

/-- A resolved configuration (`pub struct Config`). -/
structure Config where
  pattern : Str
  filename : Str
  case_sensitive : Bool
deriving DecidableEq

/-- `str::parse::<i32>`: an optional single sign, then one or more ASCII
digits; rejects the empty string, non-digit chars, and values outside the
`i32` range. -/
def parseDigitsAux : Nat → Str → Option Nat
  | acc, [] => some acc
  | acc, c :: cs =>
    if c.isDigit then parseDigitsAux (acc * 10 + (c.toNat - 48)) cs else none

/-- `str::parse::<i32>` (see `parseDigitsAux`). -/
def parseI32 (s : Str) : Option Int :=
  let signRest : Int × Str :=
    match s with
    | c :: r => if c = '+' then (1, r) else if c = '-' then (-1, r) else (1, s)
    | [] => (1, s)
  match signRest.2 with
  | [] => none
  | rest =>
    match parseDigitsAux 0 rest with
    | none => none
    | some n =>
      let v : Int := signRest.1 * n
      if -(2 ^ 31) ≤ v ∧ v ≤ 2 ^ 31 - 1 then some v else none

/-- The `case_sensitive` resolution of `Config::new`:
`val.parse().unwrap_or(0) == 1` decides insensitivity when the variable is
present; absence yields sensitivity. -/
def caseSensitiveFromEnv (env : Option Str) : Bool :=
  match env with
  | some val => if ((parseI32 val).getD 0 = 1 : Prop) then false else true
  | none => true

/-- The error message `Config::new` returns on missing arguments. -/
def notEnoughArgs : Str := str "not enough arguments specified"

/-- `Config::new`: discard the first argument (the program name), take the
next two as pattern and filename (failing when either is missing), and
resolve `case_sensitive` from the environment. -/
def Config.new (args : List Str) (env : Option Str) : Except Str Config :=
  match args.tail with
  | p :: f :: _ => Except.ok ⟨p, f, caseSensitiveFromEnv env⟩
  | _ => Except.error notEnoughArgs

/-! ## `run` (lib.rs lines 40–53)

`fs::read_to_string` is an injected reader returning `Except ε Str`
(`ε` the underlying I/O error type); the `?` operator propagates its error
unchanged.  The `println!` loop is embedded as the returned list of
printed lines. -/

/-- `pub fn run`: read the file, propagate a read error, otherwise filter
with the variant selected by `case_sensitive` and print every resulting
line in order. -/
def run {ε : Type} (readToString : Str → Except ε Str) (config : Config) :
    Except ε (List Str) :=
  match readToString config.filename with
  | Except.error e => Except.error e
  | Except.ok contents =>
    Except.ok
      (if config.case_sensitive then search config.pattern contents
       else search_case_insensitive config.pattern contents)

/-! ## Basic lemmas: substring containment and the two filters -/

/-- `containsSub` decides substring containment. -/
theorem containsSub_iff (n h : Str) : containsSub n h = true ↔ n <:+: h := by
  induction h with
  | nil => simp [containsSub, List.isEmpty_iff, List.infix_nil]
  | cons c cs ih =>
    simp [containsSub, Bool.or_eq_true, List.isPrefixOf_iff_prefix, ih,
      List.infix_cons_iff]

theorem containsSub_eq_decide (n h : Str) :
    containsSub n h = decide (n <:+: h) := by
  rw [Bool.eq_iff_iff, containsSub_iff, decide_eq_true_eq]

theorem search_eq_filter (P C : Str) :
    search P C = (lines C).filter (fun l => decide (P <:+: l)) :=
  List.filter_congr (fun l _ => containsSub_eq_decide P l)

theorem mem_search (P C l : Str) :
    l ∈ search P C ↔ l ∈ lines C ∧ P <:+: l := by
  simp [search, List.mem_filter, containsSub_iff]

theorem search_sublist (P C : Str) : (search P C).Sublist (lines C) :=
  List.filter_sublist _

theorem search_ci_eq_filter (P C : Str) :
    search_case_insensitive P C =
      (lines C).filter (fun l => decide (toLowercase P <:+: toLowercase l)) :=
  List.filter_congr (fun l _ => containsSub_eq_decide (toLowercase P) (toLowercase l))

theorem mem_search_ci (P C l : Str) :
    l ∈ search_case_insensitive P C ↔
      l ∈ lines C ∧ toLowercase P <:+: toLowercase l := by
  simp [search_case_insensitive, List.mem_filter, containsSub_iff]

theorem search_ci_sublist (P C : Str) :
    (search_case_insensitive P C).Sublist (lines C) :=
  List.filter_sublist _

theorem containsSub_nil (l : Str) : containsSub [] l = true := by
  cases l with
  | nil => rfl
  | cons c cs => simp [containsSub, List.isPrefixOf]

/-! ## Lemmas about `toLowercase` -/

theorem lowercaseChar_of_ne_sigma (b a : Str) (c : Char) (h : c ≠ 'Σ') :
    lowercaseChar b c a = charToLowercase c := by
  simp [lowercaseChar, h]

theorem toLowercaseAux_cons (b : Str) (c : Char) (after : Str) :
    toLowercaseAux b (c :: after) =
      lowercaseChar b c after ++ toLowercaseAux (c :: b) after := rfl

/-- On a sigma-free segment, the worker acts char by char, independent of
both contexts. -/
theorem toLowercaseAux_no_sigma (xs : Str) (h : 'Σ' ∉ xs) (b ys : Str) :
    toLowercaseAux b (xs ++ ys) =
      xs.flatMap charToLowercase ++ toLowercaseAux (xs.reverse ++ b) ys := by
  induction xs generalizing b with
  | nil => simp
  | cons c t ih =>
    have hc : c ≠ 'Σ' := fun e => h (e ▸ List.mem_cons_self c t)
    have ht : 'Σ' ∉ t := fun e => h (List.mem_cons_of_mem c e)
    rw [List.cons_append, toLowercaseAux_cons,
      lowercaseChar_of_ne_sigma _ _ _ hc, ih ht (c :: b)]
    simp

/-- A sigma-free string lowercases char by char. -/
theorem toLowercase_no_sigma (xs : Str) (h : 'Σ' ∉ xs) :
    toLowercase xs = xs.flatMap charToLowercase := by
  have := toLowercaseAux_no_sigma xs h [] []
  simpa [toLowercase, toLowercaseAux] using this

/-- The worker splits over an append, up to a prefix accounting for the
consumed left part. -/
theorem toLowercaseAux_append (xs : Str) (b rest : Str) :
    ∃ out, toLowercaseAux b (xs ++ rest) =
      out ++ toLowercaseAux (xs.reverse ++ b) rest := by
  induction xs generalizing b with
  | nil => exact ⟨[], by simp⟩
  | cons c t ih =>
    obtain ⟨out, hout⟩ := ih (c :: b)
    refine ⟨lowercaseChar b c (t ++ rest) ++ out, ?_⟩
    rw [List.cons_append, toLowercaseAux_cons, hout]
    simp

/-- Lowercasing preserves containment of a sigma-free pattern. -/
theorem toLowercase_infix_of_no_sigma (P l : Str) (h : 'Σ' ∉ P)
    (hinf : P <:+: l) : toLowercase P <:+: toLowercase l := by
  obtain ⟨s, t, rfl⟩ := hinf
  obtain ⟨out, hout⟩ := toLowercaseAux_append s [] (P ++ t)
  have hP := toLowercaseAux_no_sigma P h (s.reverse ++ []) t
  refine ⟨out, toLowercaseAux (P.reverse ++ (s.reverse ++ [])) t, ?_⟩
  rw [toLowercase_no_sigma P h, List.append_assoc]
  calc out ++ (P.flatMap charToLowercase ++
        toLowercaseAux (P.reverse ++ (s.reverse ++ [])) t)
      = out ++ toLowercaseAux (s.reverse ++ []) (P ++ t) := by rw [hP]
    _ = toLowercaseAux [] (s ++ (P ++ t)) := hout.symm
    _ = toLowercase (s ++ P ++ t) := by rw [toLowercase, List.append_assoc]

/-! ## Lemmas about `splitInclusive` and `lines` -/

theorem stripSuffixChar_spec (c : Char) (l : Str) :
    stripSuffixChar c l =
      if l.getLast? = some c then some l.dropLast else none := by
  cases hrev : l.reverse with
  | nil =>
    have hl : l = [] := List.reverse_eq_nil_iff.mp hrev
    subst hl
    simp [stripSuffixChar]
  | cons x xs =>
    have hl : l = xs.reverse ++ [x] := by
      rw [← List.reverse_reverse l, hrev, List.reverse_cons]
    subst hl
    simp only [stripSuffixChar, List.getLast?_concat, List.dropLast_concat]
    rw [List.reverse_append]
    simp only [List.reverse_cons, List.reverse_nil, List.nil_append,
      List.reverse_reverse, List.singleton_append]
    by_cases hx : x = c
    · simp [hx]
    · simp [hx, fun h => hx (Option.some_injective _ h)]

/-- Every piece of `splitInclusive` is nonempty and keeps the separator
out of all positions but the last. -/
theorem splitInclusive_piece_shape (sep : Char) (s : Str) :
    ∀ part ∈ splitInclusive sep s, part ≠ [] ∧ sep ∉ part.dropLast := by
  induction s with
  | nil => simp [splitInclusive]
  | cons c cs ih =>
    intro part hp
    by_cases hc : c = sep
    · rw [splitInclusive, if_pos hc] at hp
      rcases List.mem_cons.mp hp with rfl | h
      · exact ⟨by simp, by simp⟩
      · exact ih part h
    · rw [splitInclusive, if_neg hc] at hp
      cases hsplit : splitInclusive sep cs with
      | nil =>
        rw [hsplit] at hp
        simp only [splitInclusiveCons, List.mem_singleton] at hp
        subst hp
        exact ⟨by simp, by simp⟩
      | cons p ps =>
        rw [hsplit] at hp
        rcases List.mem_cons.mp hp with rfl | h
        · obtain ⟨hp1, hp2⟩ := ih p (by rw [hsplit]; exact List.mem_cons_self p ps)
          refine ⟨by simp, ?_⟩
          rw [List.dropLast_cons_of_ne_nil hp1]
          intro hmem
          rcases List.mem_cons.mp hmem with rfl | hmem
          · exact hc rfl
          · exact hp2 hmem
        · exact ih part (by rw [hsplit]; exact List.mem_cons_of_mem p h)

theorem linesMap_eq_of_none (part : Str)
    (h : stripSuffixChar '\n' part = none) : linesMap part = part := by
  rw [linesMap, h]

theorem linesMap_of_strip (part s : Str)
    (h : stripSuffixChar '\n' part = some s)
    (h2 : stripSuffixChar '\r' s = none) : linesMap part = s := by
  rw [linesMap, h]
  show (match stripSuffixChar '\r' s with | none => s | some s2 => s2) = s
  rw [h2]

theorem linesMap_of_strip2 (part s s2 : Str)
    (h : stripSuffixChar '\n' part = some s)
    (h2 : stripSuffixChar '\r' s = some s2) : linesMap part = s2 := by
  rw [linesMap, h]
  show (match stripSuffixChar '\r' s with | none => s | some s2 => s2) = s2
  rw [h2]

/-- The mapped piece never contains the newline separator. -/
theorem newline_not_mem_linesMap (part : Str) (h1 : part ≠ [])
    (h2 : '\n' ∉ part.dropLast) : '\n' ∉ linesMap part := by
  by_cases hlast : part.getLast? = some '\n'
  · obtain ⟨ys, rfl⟩ := List.getLast?_eq_some_iff.mp hlast
    have hOrig : stripSuffixChar '\n' (ys ++ ['\n']) = some ys := by
      rw [stripSuffixChar_spec, List.getLast?_concat]
      simp
    rw [List.dropLast_concat] at h2
    rcases hstrip2 : stripSuffixChar '\r' ys with _ | s2
    · rw [linesMap_of_strip _ _ hOrig hstrip2]
      exact h2
    · rw [linesMap_of_strip2 _ _ _ hOrig hstrip2]
      rw [stripSuffixChar_spec] at hstrip2
      split_ifs at hstrip2 with h3
      · obtain ⟨zs, rfl⟩ := List.getLast?_eq_some_iff.mp h3
        rw [List.dropLast_concat] at hstrip2
        obtain rfl : zs = s2 := Option.some_injective _ hstrip2
        intro hmem
        exact h2 (List.mem_append.mpr (Or.inl hmem))
  · have hOrig : stripSuffixChar '\n' part = none := by
      rw [stripSuffixChar_spec, if_neg hlast]
    rw [linesMap_eq_of_none _ hOrig]
    intro hmem
    rw [← List.dropLast_append_getLast h1] at hmem
    rcases List.mem_append.mp hmem with hm | hm
    · exact h2 hm
    · rw [List.mem_singleton] at hm
      rw [← List.dropLast_append_getLast h1, List.getLast?_concat] at hlast
      exact hlast (by rw [← hm])

/-- No line produced by `lines` contains a newline char. -/
theorem newline_not_mem_lines (s l : Str) (h : l ∈ lines s) : '\n' ∉ l := by
  rw [lines, List.mem_map] at h
  obtain ⟨part, hpart, rfl⟩ := h
  obtain ⟨h1, h2⟩ := splitInclusive_piece_shape _ s part hpart
  exact newline_not_mem_linesMap part h1 h2

/-- Splitting distributes over the first separator occurrence. -/
theorem splitInclusive_sep_append (sep : Char) (a b : Str) (h : sep ∉ a) :
    splitInclusive sep (a ++ sep :: b) = (a ++ [sep]) :: splitInclusive sep b := by
  induction a with
  | nil => simp [splitInclusive]
  | cons c t ih =>
    have hc : ¬ c = sep := fun e => h (e ▸ List.mem_cons_self c t)
    have ht : sep ∉ t := fun e => h (List.mem_cons_of_mem c e)
    rw [List.cons_append, splitInclusive, if_neg hc, ih ht]
    rfl

/-- A piece terminated by `"\r\n"` maps to the piece with both chars
stripped. -/
theorem linesMap_concat_crlf (a : Str) : linesMap (a ++ ['\r', '\n']) = a := by
  have h1 : stripSuffixChar '\n' (a ++ ['\r', '\n']) = some (a ++ ['\r']) := by
    have : a ++ ['\r', '\n'] = (a ++ ['\r']) ++ ['\n'] := by simp
    rw [this, stripSuffixChar_spec, List.getLast?_concat]
    simp
  have h2 : stripSuffixChar '\r' (a ++ ['\r']) = some a := by
    rw [stripSuffixChar_spec, List.getLast?_concat]
    simp
  rw [linesMap_of_strip2 _ _ _ h1 h2]

/-- A `"\r\n"` pair in the content is a single line boundary and is
stripped from the line it terminates. -/
theorem lines_crlf (a b : Str) (h : '\n' ∉ a) :
    lines (a ++ '\r' :: '\n' :: b) = a :: lines b := by
  have h2 : '\n' ∉ a ++ ['\r'] := by
    intro hmem
    rcases List.mem_append.mp hmem with hm | hm
    · exact h hm
    · rw [List.mem_singleton] at hm
      exact absurd hm (by decide)
  have hre : a ++ '\r' :: '\n' :: b = (a ++ ['\r']) ++ '\n' :: b := by simp
  rw [lines, hre, splitInclusive_sep_append _ _ _ h2, List.map_cons]
  have : (a ++ ['\r']) ++ ['\n'] = a ++ ['\r', '\n'] := by simp
  rw [this, linesMap_concat_crlf]
  rfl

/-! ## The claims -/

/-- C1: for every pattern `P` and content `C`, `search P C` is exactly the
subsequence of the lines of `C` that contain `P` as a contiguous
substring: it equals the filter of the lines by containment, it is a
sublist (hence order-preserving) of the lines, every returned line
contains `P`, and every line containing `P` is returned. -/
theorem minigrep_search_exact_filter (P C : Str) :
    search P C = (lines C).filter (fun l => decide (P <:+: l)) ∧
    (search P C).Sublist (lines C) ∧
    (∀ l, l ∈ search P C → P <:+: l) ∧
    (∀ l, l ∈ lines C → P <:+: l → l ∈ search P C) :=
  ⟨search_eq_filter P C, search_sublist P C,
   fun l hl => ((mem_search P C l).mp hl).2,
   fun l hm hi => (mem_search P C l).mpr ⟨hm, hi⟩⟩

/-- Witness for C1 at the concrete input of the crate's own test. -/
theorem minigrep_search_exact_filter_witness :
    str "safe, fast, productive." ∈
      search (str "duct") (str "Rust:\nsafe, fast, productive.\nPick three.") :=
  (minigrep_search_exact_filter (str "duct")
      (str "Rust:\nsafe, fast, productive.\nPick three.")).2.2.2
    (str "safe, fast, productive.") (by decide) (by decide)

/-- C2: `search_case_insensitive P C` returns exactly the lines of `C`
(in original order, as their original text) whose lowercase form contains
the lowercase form of `P`, with `toLowercase` the full-string Unicode
lowercasing (not ASCII-only — e.g. it folds `"RÜST"` to `"rüst"`). -/
theorem minigrep_search_ci_filter (P C : Str) :
    search_case_insensitive P C =
      (lines C).filter (fun l => decide (toLowercase P <:+: toLowercase l)) ∧
    (search_case_insensitive P C).Sublist (lines C) ∧
    (∀ l, l ∈ search_case_insensitive P C →
      l ∈ lines C ∧ toLowercase P <:+: toLowercase l) ∧
    (∀ l, l ∈ lines C → toLowercase P <:+: toLowercase l →
      l ∈ search_case_insensitive P C) ∧
    toLowercase (str "RÜST") = str "rüst" :=
  ⟨search_ci_eq_filter P C, search_ci_sublist P C,
   fun l hl => (mem_search_ci P C l).mp hl,
   fun l hm hi => (mem_search_ci P C l).mpr ⟨hm, hi⟩,
   by decide⟩

/-- Witness for C2 at a concrete mixed-case input. -/
theorem minigrep_search_ci_filter_witness :
    str "Trust me." ∈ search_case_insensitive (str "RuSt") (str "Rust:\nTrust me.") :=
  (minigrep_search_ci_filter (str "RuSt") (str "Rust:\nTrust me.")).2.2.2.1
    (str "Trust me.") (by decide) (by decide)

/-- C3 counterexample: lowercasing is not a superset-preserving fold.
With pattern `"Σ"` and content `"ΑΣ"`, the exact filter matches the line
`"ΑΣ"`, but the case-insensitive filter rejects it: the word-final `'Σ'`
of the line lowercases to `'ς'` while the pattern's lone `'Σ'` lowercases
to `'σ'`, and `"σ"` is not a substring of `"ας"`. -/
theorem minigrep_fold_superset_counterexample :
    str "ΑΣ" ∈ search (str "Σ") (str "ΑΣ") ∧
    str "ΑΣ" ∉ search_case_insensitive (str "Σ") (str "ΑΣ") := by
  decide

/-- C3 (amended): for every pattern `P` containing no uppercase sigma
`'Σ'` (U+03A3), the case-insensitive filter's result is a
superset-or-equal of the exact filter's result on the same inputs. -/
theorem minigrep_fold_superset (P C : Str) (h : 'Σ' ∉ P) :
    ∀ l, l ∈ search P C → l ∈ search_case_insensitive P C := by
  intro l hl
  obtain ⟨hm, hi⟩ := (mem_search P C l).mp hl
  exact (mem_search_ci P C l).mpr ⟨hm, toLowercase_infix_of_no_sigma P l h hi⟩

/-- Witness for C3 (amended) at a concrete sigma-free input. -/
theorem minigrep_fold_superset_witness :
    str "safe, fast, productive." ∈
      search_case_insensitive (str "duct") (str "safe, fast, productive.") :=
  minigrep_fold_superset (str "duct") (str "safe, fast, productive.")
    (by decide) (str "safe, fast, productive.") (by decide)

/-- C4: `case_sensitive` resolves to `false` exactly when the
`CASE_INSENSITIVE` variable is present and its value parses as the
integer `1` — which also accepts forms like `"01"` and `"+1"`; an absent,
unparsable, or other-valued variable yields `true`. -/
theorem minigrep_env_toggle :
    (∀ env : Option Str,
      caseSensitiveFromEnv env = false ↔
        ∃ val, env = some val ∧ parseI32 val = some 1) ∧
    caseSensitiveFromEnv (some (str "01")) = false ∧
    caseSensitiveFromEnv (some (str "+1")) = false ∧
    caseSensitiveFromEnv (some (str "2")) = true ∧
    caseSensitiveFromEnv (some (str "abc")) = true ∧
    caseSensitiveFromEnv none = true := by
  refine ⟨?_, by decide, by decide, by decide, by decide, rfl⟩
  intro env
  cases env with
  | none => simp [caseSensitiveFromEnv]
  | some val =>
    simp only [caseSensitiveFromEnv]
    split_ifs with hp
    · constructor
      · intro _
        refine ⟨val, rfl, ?_⟩
        cases hv : parseI32 val with
        | none => rw [hv] at hp; exact absurd hp (by decide)
        | some n =>
          rw [hv] at hp
          have hn : n = 1 := hp
          rw [hn]
      · intro _
        rfl
    · constructor
      · intro h
        exact absurd h (by decide)
      · rintro ⟨v, hv2, hp2⟩
        obtain rfl : val = v := Option.some_injective _ hv2
        exact absurd (show (parseI32 val).getD 0 = 1 by rw [hp2]; rfl) hp

/-- Witness for C4: `CASE_INSENSITIVE=1` yields `case_sensitive = false`,
through the characterization. -/
theorem minigrep_env_toggle_witness :
    caseSensitiveFromEnv (some (str "1")) = false :=
  (minigrep_env_toggle.1 (some (str "1"))).mpr ⟨ str "1", rfl, by decide⟩

/-- C5: with fewer than two elements after the program name, `Config.new`
fails with the insufficient-arguments error; with two or more, it
succeeds, the first two become pattern and file path, and the rest are
ignored. -/
theorem minigrep_insufficient_args (prog : Str) (rest : List Str)
    (env : Option Str) :
    (rest.length < 2 → Config.new (prog :: rest) env = Except.error notEnoughArgs) ∧
    (∀ p f more, rest = p :: f :: more →
      Config.new (prog :: rest) env =
        Except.ok ⟨p, f, caseSensitiveFromEnv env⟩) := by
  constructor
  · intro h
    rcases rest with _ | ⟨a, rest2⟩
    · rfl
    rcases rest2 with _ | ⟨b, rest3⟩
    · rfl
    · simp only [List.length_cons] at h
      omega
  · rintro p f more rfl
    rfl

/-- Witness for C5 at concrete argument vectors. -/
theorem minigrep_insufficient_args_witness :
    Config.new [str "minigrep", str "pat"] none = Except.error notEnoughArgs ∧
    Config.new [str "minigrep", str "pat", str "f.txt", str "x"] none =
      Except.ok ⟨ str "pat", str "f.txt", true⟩ :=
  ⟨(minigrep_insufficient_args (str "minigrep") [str "pat"] none).1 (by decide),
   (minigrep_insufficient_args (str "minigrep")
       [str "pat", str "f.txt", str "x"] none).2
     (str "pat") (str "f.txt") [str "x"] rfl⟩

/-- C7 counterexample: `Config.new` has no alternative calling convention.
On the two-element sequence `["pattern", "filename"]` — two meaningful
strings with no leading program name — it fails instead of succeeding
with that pattern and file path. -/
theorem minigrep_args_alternative_counterexample :
    Config.new [str "pattern", str "filename"] none =
      Except.error notEnoughArgs := rfl

/-- C7 (amended): `Config.new` treats every argument sequence uniformly:
the first element is always discarded, pattern and file path are always
the second and third elements, and a sequence of only two meaningful
strings without a leading ignored element fails with the
insufficient-arguments error. -/
theorem minigrep_args_uniform (p f : Str) (more : List Str)
    (env : Option Str) :
    (∀ a, Config.new (a :: p :: f :: more) env =
      Except.ok ⟨p, f, caseSensitiveFromEnv env⟩) ∧
    Config.new [p, f] env = Except.error notEnoughArgs :=
  ⟨fun _ => rfl, rfl⟩

/-- C6: `run` fails with the propagated read error exactly when reading
the configured file fails; otherwise it prints the selected filter's
result, line by line in order, and succeeds — also when there are zero
matches. -/
theorem minigrep_run_contract {ε : Type} (readToString : Str → Except ε Str)
    (config : Config) :
    (∀ e, run readToString config = Except.error e ↔
      readToString config.filename = Except.error e) ∧
    (∀ contents, readToString config.filename = Except.ok contents →
      run readToString config = Except.ok
        (if config.case_sensitive then search config.pattern contents
         else search_case_insensitive config.pattern contents)) := by
  constructor
  · intro e
    constructor
    · intro h
      cases hr : readToString config.filename with
      | error e2 =>
        simp only [run, hr] at h
        injection h with h2
        subst h2
        rfl
      | ok contents =>
        simp only [run, hr] at h
        exact Except.noConfusion h
    · intro h
      simp only [run, h]
  · intro contents h
    simp only [run, h]

/-- Witness for C6: an always-succeeding reader gives success with the
(here empty) match list; an always-failing reader propagates its error. -/
theorem minigrep_run_contract_witness :
    run (fun _ : Str => (Except.ok (str "x") : Except Nat Str))
        ⟨ str "y", str "f.txt", true⟩ = Except.ok [] ∧
    run (fun _ : Str => (Except.error 7 : Except Nat Str))
        ⟨ str "y", str "f.txt", true⟩ = Except.error 7 := by
  constructor
  · have h := (minigrep_run_contract
        (fun _ : Str => (Except.ok (str "x") : Except Nat Str))
        ⟨ str "y", str "f.txt", true⟩).2 (str "x") rfl
    rw [h]
    rfl
  · exact ((minigrep_run_contract
        (fun _ : Str => (Except.error 7 : Except Nat Str))
        ⟨ str "y", str "f.txt", true⟩).1 7).mpr rfl

/-- C8: the empty pattern matches every line — the exact filter returns
all lines of the content unchanged and in order — and empty content
yields the empty result. -/
theorem minigrep_empty_pattern (P C : Str) :
    search [] C = lines C ∧ search P [] = [] :=
  ⟨List.filter_eq_self.mpr (fun a _ => containsSub_nil a), rfl⟩

/-- C9: the two concrete scenarios of the crate's tests: case-insensitive
`"RuSt"` finds `["Rust:", "Trust me."]`, and exact `"duct"` finds
`["safe, fast, productive."]`. -/
theorem minigrep_scenarios :
    search_case_insensitive (str "RuSt")
        (str "Rust:\nsafe, fast, productive.\nPick three.\nTrust me.") =
      [str "Rust:", str "Trust me."] ∧
    search (str "duct") (str "Rust:\nsafe, fast, productive.\nPick three.") =
      [str "safe, fast, productive."] :=
  ⟨by decide, by decide⟩

/-- C10 counterexample: a final line not terminated by `'\n'` keeps its
trailing `'\r'`: searching `"baz"` in the content `"baz\r"` returns the
line `"baz\r"`, whose last char is `'\r'`. -/
theorem minigrep_trailing_cr_counterexample :
    search (str "baz") (str "baz\r") = [str "baz\r"] ∧
    (str "baz\r").getLast? = some '\r' :=
  ⟨by decide, by decide⟩

/-- C10 (amended): no string in the result of either filter contains a
`'\n'`, and a `"\r\n"` pair is a single line boundary whose two chars are
both stripped; but a trailing `'\r'` of a final line not terminated by
`'\n'` is kept. -/
theorem minigrep_line_endings (P C a b : Str) :
    (∀ l, l ∈ search P C → '\n' ∉ l) ∧
    (∀ l, l ∈ search_case_insensitive P C → '\n' ∉ l) ∧
    ('\n' ∉ a → lines (a ++ '\r' :: '\n' :: b) = a :: lines b) := by
  refine ⟨?_, ?_, lines_crlf a b⟩
  · intro l hl
    exact newline_not_mem_lines C l (List.Sublist.mem hl (search_sublist P C))
  · intro l hl
    exact newline_not_mem_lines C l (List.Sublist.mem hl (search_ci_sublist P C))

/-- Witness for C10 (amended) on Windows-style content. -/
theorem minigrep_line_endings_witness :
    lines (str "xy\r\nz") = [str "xy", str "z"] := by
  have h := (minigrep_line_endings [] [] (str "xy") (str "z")).2.2 (by decide)
  rw [(by decide : str "xy\r\nz" = str "xy" ++ '\r' :: '\n' :: str "z"), h]
  decide
